import Mathlib

/-!
Shallow embedding of the lexical front-end of the `evalexpr` crate:
the tokenizer (`src/token/mod.rs`) and the error model (`src/error/mod.rs`).

Modelling conventions:
* `IntType` (Rust `i64`) is modelled as `Int`; the `i64` range check is made
  explicit in `parse_i64`.
* `FloatType` (Rust `f64`) appears only as an opaque payload here: the
  tokenizer only ever needs to know whether a literal run is accepted by
  Rust's `f64::from_str` grammar, and it stores the parsed number without
  inspecting it.  We model the payload by the accepted source text and model
  acceptance by the documented `f64::from_str` grammar (`float_str_ok`).
* Rust `String`/`&str` is Lean `String` (a sequence of Unicode scalar values,
  matching Rust's `chars()` iteration).
* Fallible functions returning `Result<T, EvalexprError>` become
  `Except EvalexprError T`.
-/

abbrev IntType := Int

abbrev FloatType := String

/-- Type `Token` from `src/token/mod.rs`. -/
inductive Token where
  | Plus
  | Minus
  | Star
  | Slash
  | Percent
  | Eq
  | Neq
  | Gt
  | Lt
  | Geq
  | Leq
  | And
  | Or
  | Not
  | LBrace
  | RBrace
  | Whitespace
  | Identifier : String → Token
  | Float : FloatType → Token
  | Int : IntType → Token
  | Boolean : Bool → Token
deriving DecidableEq, Repr

/-- Type `PartialToken` from `src/token/mod.rs`: an already-resolved token, a
literal run, or one of the six ambiguous single characters. -/
inductive PartialToken where
  | Token : Token → PartialToken
  | Literal : String → PartialToken
  | Eq
  | ExclamationMark
  | Gt
  | Lt
  | Ampersand
  | VerticalBar
deriving DecidableEq, Repr

/-- Modelled from the spec: the value subsystem (`crate::value`) is an
external collaborator whose source is not part of this core; the spec (§4.4,
§6, glossary) names the value kinds string / int / float / boolean / tuple /
empty, which is exactly the variant set the error taxonomy's `expected_type`
dispatches over. -/
inductive Value where
  | String : String → Value
  | Float : FloatType → Value
  | Int : IntType → Value
  | Boolean : Bool → Value
  | Tuple : List Value → Value
  | Empty

abbrev TupleType := List Value

/-- Type `EvalexprError` from `src/error/mod.rs`. -/
inductive EvalexprError where
  | WrongOperatorArgumentAmount (expected : Nat) (actual : Nat)
  | WrongFunctionArgumentAmount (expected : Nat) (actual : Nat)
  | ExpectedString (actual : Value)
  | ExpectedInt (actual : Value)
  | ExpectedFloat (actual : Value)
  | ExpectedNumber (actual : Value)
  | ExpectedNumberOrString (actual : Value)
  | ExpectedBoolean (actual : Value)
  | ExpectedTuple (actual : Value)
  | ExpectedEmpty (actual : Value)
  | AppendedToLeafNode
  | PrecedenceViolation
  | VariableIdentifierNotFound (name : String)
  | FunctionIdentifierNotFound (name : String)
  | TypeError (expected : TupleType) (actual : Value)
  | UnmatchedLBrace
  | UnmatchedRBrace
  | UnmatchedPartialToken (first : PartialToken) (second : Option PartialToken)
  | AdditionError (augend : Value) (addend : Value)
  | SubtractionError (minuend : Value) (subtrahend : Value)
  | NegationError (argument : Value)
  | MultiplicationError (multiplicand : Value) (multiplier : Value)
  | DivisionError (dividend : Value) (divisor : Value)
  | ModulationError (dividend : Value) (divisor : Value)
  | InvalidRegex (regex : String) (message : String)
  | ContextNotManipulable
  | IllegalEscapeSequence (sequence : String)
  | CustomMessage (message : String)

/-- Function `expect_number` from `src/error/mod.rs`: `Ok(())` on `Value::Float(_) |
Value::Int(_)`, otherwise `Err(EvalexprError::expected_number(actual.clone()))`. -/
def expect_number (actual : Value) : Except EvalexprError Unit :=
  match actual with
  | .Float _ | .Int _ => .ok ()
  | _ => .error (.ExpectedNumber actual)

/-- Rust's `char::is_whitespace`: the Unicode `White_Space` property. -/
def rust_is_whitespace (c : Char) : Bool :=
  let n := c.toNat
  (0x9 ≤ n && n ≤ 0xD) || n == 0x20 || n == 0x85 || n == 0xA0 || n == 0x1680 ||
    (0x2000 ≤ n && n ≤ 0x200A) || n == 0x2028 || n == 0x2029 || n == 0x202F ||
    n == 0x205F || n == 0x3000

/-- Function `char_to_partial_token` from `src/token/mod.rs` (renamed to camel case):
classifies one character with no lookahead. -/
def charToPartialToken (c : Char) : PartialToken :=
  match c with
  | '+' => .Token .Plus
  | '-' => .Token .Minus
  | '*' => .Token .Star
  | '/' => .Token .Slash
  | '%' => .Token .Percent
  | '=' => .Eq
  | '!' => .ExclamationMark
  | '>' => .Gt
  | '<' => .Lt
  | '&' => .Ampersand
  | '|' => .VerticalBar
  | '(' => .Token .LBrace
  | ')' => .Token .RBrace
  | c =>
    if rust_is_whitespace c then .Token .Whitespace
    else .Literal (String.singleton c)

/-- Method `Token::is_value` from `src/token/mod.rs`. -/
def Token.is_value : Token → Bool
  | .Plus => false
  | .Minus => false
  | .Star => false
  | .Slash => false
  | .Percent => false
  | .Eq => false
  | .Neq => false
  | .Gt => false
  | .Lt => false
  | .Geq => false
  | .Leq => false
  | .And => false
  | .Or => false
  | .Not => false
  | .LBrace => false
  | .RBrace => true
  | .Whitespace => false
  | .Identifier _ => true
  | .Float _ => true
  | .Int _ => true
  | .Boolean _ => true

/-- The loop body of `str_to_tokens`: if the last element of `result` and the
new partial token are both literal runs, the new run's text is appended onto
the last element (`last.push_str(literal)`); otherwise the new partial token
is pushed. -/
def pushPartial (result : List PartialToken) (pt : PartialToken) : List PartialToken :=
  match result.getLast?, pt with
  | some (.Literal last), .Literal literal => result.dropLast ++ [.Literal (last ++ literal)]
  | _, _ => result ++ [pt]

/-- One iteration of the `for c in string.chars()` loop of `str_to_tokens`. -/
def sttStep (result : List PartialToken) (c : Char) : List PartialToken :=
  pushPartial result (charToPartialToken c)

/-- Function `str_to_tokens` from `src/token/mod.rs`: converts a string to a vector of
partial tokens, merging consecutive literal runs. -/
def str_to_tokens (string : String) : List PartialToken :=
  string.data.foldl sttStep []

/-- Value of a digit string, most significant digit first. -/
def digitsToNat (ds : List Char) : Nat :=
  ds.foldl (fun a c => 10 * a + (c.toNat - 48)) 0

/-- Rust's `i64::from_str` (`literal.parse::<IntType>()`): an optional sign
followed by one or more ASCII digits, whose value fits in `i64`. -/
def parse_i64 (s : String) : Option Int :=
  let p : Int × List Char :=
    match s.data with
    | '+' :: rest => (1, rest)
    | '-' :: rest => (-1, rest)
    | cs => (1, cs)
  let ds := p.2
  if ds.isEmpty then none
  else if ds.all Char.isDigit then
    let v : Int := p.1 * (digitsToNat ds : Int)
    if -9223372036854775808 ≤ v ∧ v ≤ 9223372036854775807 then some v else none
  else none

def isSignChar (c : Char) : Bool :=
  c == '+' || c == '-'

/-- Splits a character list at the first exponent marker `e`/`E`, if any. -/
def splitExp : List Char → List Char × Option (List Char)
  | [] => ([], none)
  | c :: rest =>
    if c == 'e' || c == 'E' then ([], some rest)
    else
      let p := splitExp rest
      (c :: p.1, p.2)

/-- Splits a character list at the first `.`, if any. -/
def splitDot : List Char → List Char × Option (List Char)
  | [] => ([], none)
  | c :: rest =>
    if c == '.' then ([], some rest)
    else
      let p := splitDot rest
      (c :: p.1, p.2)

/-- The mantissa part of Rust's float grammar:
`Digit+ | Digit+ '.' Digit* | Digit* '.' Digit+`. -/
def mantissaOk (cs : List Char) : Bool :=
  match splitDot cs with
  | (ds, none) => !ds.isEmpty && ds.all Char.isDigit
  | (l, some r) => l.all Char.isDigit && r.all Char.isDigit && (!l.isEmpty || !r.isEmpty)

/-- The exponent part of Rust's float grammar: `Sign? Digit+`. -/
def exponentOk (cs : List Char) : Bool :=
  let ds :=
    match cs with
    | c :: rest => if isSignChar c then rest else c :: rest
    | [] => []
  !ds.isEmpty && ds.all Char.isDigit

/-- Acceptance by Rust's `f64::from_str` (`literal.parse::<FloatType>()`):
`Sign? ( 'inf' | 'infinity' | 'nan' | Number )` case-insensitively, with
`Number ::= (Digit+ | Digit+ '.' Digit* | Digit* '.' Digit+) Exp?` and
`Exp ::= ('e'|'E') Sign? Digit+`.  Parsing never fails on magnitude
(overflow rounds to infinity), so acceptance is exactly grammar membership. -/
def float_str_ok (s : String) : Bool :=
  let cs :=
    match s.data with
    | c :: rest => if isSignChar c then rest else c :: rest
    | [] => []
  let low := cs.map Char.toLower
  if low == "inf".data || low == "infinity".data || low == "nan".data then true
  else
    match splitExp cs with
    | (m, none) => mantissaOk m
    | (m, some e) => mantissaOk m && exponentOk e

/-- Rust's `bool::from_str` (`literal.parse::<bool>()`): exactly `"true"` or
`"false"`. -/
def parse_bool (s : String) : Option Bool :=
  if s == "true" then some true
  else if s == "false" then some false
  else none

/-- The `PartialToken::Literal` arm of `resolve_literals`: parse as integer,
else as float, else as boolean, else keep the run verbatim as an identifier. -/
def literal_to_token (literal : String) : Token :=
  match parse_i64 literal with
  | some number => .Int number
  | none =>
    if float_str_ok literal then .Float literal
    else
      match parse_bool literal with
      | some boolean => .Boolean boolean
      | none => .Identifier literal

/-- Function `resolve_literals` from `src/token/mod.rs`: the `while tokens.len() > 0`
loop written as recursion on the remaining slice.  Each iteration inspects
`first = tokens[0]` and `second = tokens.get(1)` and advances by `cutoff`
(2 by default, reset to 1 in the single-consumption arms), so advancing by 2
is expressed by recursing on `rest2` and advancing by 1 by recursing on
`rest`. -/
def resolve_literals : List PartialToken → Except EvalexprError (List Token)
  | [] => .ok []
  | .Token token :: rest => (resolve_literals rest).map (fun r => token :: r)
  | .Literal literal :: rest =>
    (resolve_literals rest).map (fun r => literal_to_token literal :: r)
  | .Eq :: .Eq :: rest2 => (resolve_literals rest2).map (fun r => Token.Eq :: r)
  | .Eq :: rest => .error (.UnmatchedPartialToken .Eq rest.head?)
  | .ExclamationMark :: .Eq :: rest2 =>
    (resolve_literals rest2).map (fun r => Token.Eq :: r)
  | .ExclamationMark :: rest => (resolve_literals rest).map (fun r => Token.Not :: r)
  | .Gt :: .Eq :: rest2 => (resolve_literals rest2).map (fun r => Token.Geq :: r)
  | .Gt :: rest => (resolve_literals rest).map (fun r => Token.Gt :: r)
  | .Lt :: .Eq :: rest2 => (resolve_literals rest2).map (fun r => Token.Leq :: r)
  | .Lt :: rest => (resolve_literals rest).map (fun r => Token.Lt :: r)
  | .Ampersand :: .Ampersand :: rest2 =>
    (resolve_literals rest2).map (fun r => Token.And :: r)
  | .Ampersand :: rest => .error (.UnmatchedPartialToken .Ampersand rest.head?)
  | .VerticalBar :: .VerticalBar :: rest2 =>
    (resolve_literals rest2).map (fun r => Token.Or :: r)
  | .VerticalBar :: rest => .error (.UnmatchedPartialToken .VerticalBar rest.head?)

/-- Function `tokenize` from `src/token/mod.rs`: the sole public entry point. -/
def tokenize (string : String) : Except EvalexprError (List Token) :=
  resolve_literals (str_to_tokens string)

/-- Whether a partial token is a literal run. -/
def isLit : PartialToken → Bool
  | .Literal _ => true
  | _ => false

theorem pushPartial_ne_nil (acc : List PartialToken) (pt : PartialToken) :
    pushPartial acc pt ≠ [] := by
  unfold pushPartial
  split <;> simp

theorem pushPartial_of_not_lit {pt : PartialToken} (acc : List PartialToken)
    (h : isLit pt = false) : pushPartial acc pt = acc ++ [pt] := by
  unfold pushPartial
  split
  · simp_all [isLit]
  · rfl

theorem pushPartial_of_getLast_not_lit {b : PartialToken} (acc : List PartialToken)
    (pt : PartialToken) (hb : acc.getLast? = some b) (h : isLit b = false) :
    pushPartial acc pt = acc ++ [pt] := by
  unfold pushPartial
  split
  · rename_i last literal heq
    exfalso
    rw [hb] at heq
    simp only [Option.some.injEq] at heq
    subst heq
    simp [isLit] at h
  · rfl

theorem pushPartial_append (xs ys : List PartialToken) (pt : PartialToken)
    (h : ys ≠ []) : pushPartial (xs ++ ys) pt = xs ++ pushPartial ys pt := by
  unfold pushPartial
  rw [List.getLast?_append_of_ne_nil xs h]
  cases hy : ys.getLast? with
  | none => cases pt <;> simp [List.append_assoc]
  | some b =>
    cases b <;> cases pt <;>
      simp [List.append_assoc, List.dropLast_append_of_ne_nil, h]

theorem foldl_sttStep_append (cs : List Char) :
    ∀ (xs ys : List PartialToken), ys ≠ [] →
      List.foldl sttStep (xs ++ ys) cs = xs ++ List.foldl sttStep ys cs := by
  induction cs with
  | nil => intro xs ys _; rfl
  | cons c cs2 ih =>
    intro xs ys h
    show List.foldl sttStep (sttStep (xs ++ ys) c) cs2 =
      xs ++ List.foldl sttStep (sttStep ys c) cs2
    rw [show sttStep (xs ++ ys) c = xs ++ sttStep ys c from
      pushPartial_append xs ys _ h]
    exact ih xs (sttStep ys c) (pushPartial_ne_nil ys _)

theorem pushPartial_nil (pt : PartialToken) : pushPartial [] pt = [pt] := by
  unfold pushPartial
  cases pt <;> rfl

theorem foldl_sttStep_barrier {b : PartialToken} (h : isLit b = false)
    (cs : List Char) :
    List.foldl sttStep [b] cs = b :: List.foldl sttStep [] cs := by
  cases cs with
  | nil => rfl
  | cons c cs2 =>
    show List.foldl sttStep (sttStep [b] c) cs2 =
      b :: List.foldl sttStep (sttStep [] c) cs2
    have h1 : sttStep [b] c = [b] ++ [charToPartialToken c] :=
      pushPartial_of_getLast_not_lit [b] _ rfl h
    have h2 : sttStep [] c = [charToPartialToken c] := pushPartial_nil _
    rw [h1, h2, foldl_sttStep_append cs2 [b] [charToPartialToken c] (by simp)]
    rfl

/-- Adjacent entries of the merged sequence are never both literal runs. -/
def noAdjLit (a b : PartialToken) : Prop :=
  ¬(isLit a = true ∧ isLit b = true)

theorem pushPartial_length (acc : List PartialToken) (pt : PartialToken) :
    (pushPartial acc pt).length ≤ acc.length + 1 := by
  unfold pushPartial
  split
  · simp [List.length_dropLast]
  · simp

theorem pushPartial_chain (acc : List PartialToken) (pt : PartialToken)
    (h : List.Chain' noAdjLit acc) : List.Chain' noAdjLit (pushPartial acc pt) := by
  cases hl : acc.getLast? with
  | none =>
    rw [List.getLast?_eq_none_iff] at hl
    subst hl
    rw [pushPartial_nil]
    exact List.chain'_singleton _
  | some b =>
    cases hb : isLit b with
    | false =>
      rw [pushPartial_of_getLast_not_lit acc pt hl hb]
      refine h.append (List.chain'_singleton _) ?_
      intro x hx y hy
      rw [hl] at hx
      simp only [Option.mem_def, Option.some.injEq] at hx
      subst hx
      simp only [List.head?_cons, Option.mem_def, Option.some.injEq] at hy
      subst hy
      intro hcon
      rw [hb] at hcon
      exact absurd hcon.1 (by simp)
    | true =>
      cases pt with
      | Literal lit =>
        obtain ⟨last, rfl⟩ : ∃ l, b = PartialToken.Literal l := by
          cases b <;> simp [isLit] at hb ⊢
        have hacc : acc.dropLast ++ [PartialToken.Literal last] = acc :=
          List.dropLast_append_getLast? _ (by simp [hl])
        have hred : pushPartial acc (.Literal lit) =
            acc.dropLast ++ [.Literal (last ++ lit)] := by
          unfold pushPartial
          rw [hl]
        rw [hred]
        rw [← hacc] at h
        rw [List.chain'_append] at h
        obtain ⟨h1, _, h3⟩ := h
        refine h1.append (List.chain'_singleton _) ?_
        intro x hx y hy
        simp only [List.head?_cons, Option.mem_def, Option.some.injEq] at hy
        subst hy
        have hx2 := h3 x hx (PartialToken.Literal last) (by simp)
        intro hcon
        exact hx2 ⟨hcon.1, rfl⟩
      | Token t =>
        rw [pushPartial_of_not_lit acc (by simp [isLit])]
        refine h.append (List.chain'_singleton _) ?_
        intro x _ y hy
        simp only [List.head?_cons, Option.mem_def, Option.some.injEq] at hy
        subst hy
        intro hcon
        exact absurd hcon.2 (by simp [isLit])
      | Eq =>
        rw [pushPartial_of_not_lit acc (by simp [isLit])]
        refine h.append (List.chain'_singleton _) ?_
        intro x _ y hy
        simp only [List.head?_cons, Option.mem_def, Option.some.injEq] at hy
        subst hy
        intro hcon
        exact absurd hcon.2 (by simp [isLit])
      | ExclamationMark =>
        rw [pushPartial_of_not_lit acc (by simp [isLit])]
        refine h.append (List.chain'_singleton _) ?_
        intro x _ y hy
        simp only [List.head?_cons, Option.mem_def, Option.some.injEq] at hy
        subst hy
        intro hcon
        exact absurd hcon.2 (by simp [isLit])
      | Gt =>
        rw [pushPartial_of_not_lit acc (by simp [isLit])]
        refine h.append (List.chain'_singleton _) ?_
        intro x _ y hy
        simp only [List.head?_cons, Option.mem_def, Option.some.injEq] at hy
        subst hy
        intro hcon
        exact absurd hcon.2 (by simp [isLit])
      | Lt =>
        rw [pushPartial_of_not_lit acc (by simp [isLit])]
        refine h.append (List.chain'_singleton _) ?_
        intro x _ y hy
        simp only [List.head?_cons, Option.mem_def, Option.some.injEq] at hy
        subst hy
        intro hcon
        exact absurd hcon.2 (by simp [isLit])
      | Ampersand =>
        rw [pushPartial_of_not_lit acc (by simp [isLit])]
        refine h.append (List.chain'_singleton _) ?_
        intro x _ y hy
        simp only [List.head?_cons, Option.mem_def, Option.some.injEq] at hy
        subst hy
        intro hcon
        exact absurd hcon.2 (by simp [isLit])
      | VerticalBar =>
        rw [pushPartial_of_not_lit acc (by simp [isLit])]
        refine h.append (List.chain'_singleton _) ?_
        intro x _ y hy
        simp only [List.head?_cons, Option.mem_def, Option.some.injEq] at hy
        subst hy
        intro hcon
        exact absurd hcon.2 (by simp [isLit])

theorem foldl_sttStep_chain (cs : List Char) :
    ∀ acc, List.Chain' noAdjLit acc →
      List.Chain' noAdjLit (List.foldl sttStep acc cs) := by
  induction cs with
  | nil => intro acc h; exact h
  | cons c cs2 ih => intro acc h; exact ih _ (pushPartial_chain acc _ h)

theorem foldl_sttStep_length (cs : List Char) :
    ∀ acc : List PartialToken,
      (List.foldl sttStep acc cs).length ≤ acc.length + cs.length := by
  induction cs with
  | nil => intro acc; simp
  | cons c cs2 ih =>
    intro acc
    have h1 := ih (sttStep acc c)
    have h2 := pushPartial_length acc (charToPartialToken c)
    simp only [List.foldl_cons, List.length_cons]
    calc (List.foldl sttStep (sttStep acc c) cs2).length
        ≤ (sttStep acc c).length + cs2.length := h1
      _ ≤ (acc.length + 1) + cs2.length := by
          exact Nat.add_le_add_right h2 _
      _ = acc.length + (cs2.length + 1) := by omega

theorem parse_bool_eq_some {s : String} {b : Bool} (h : parse_bool s = some b) :
    (s = "true" ∧ b = true) ∨ (s = "false" ∧ b = false) := by
  unfold parse_bool at h
  by_cases h1 : s = "true"
  · simp [h1] at h
    exact Or.inl ⟨h1, h⟩
  · by_cases h2 : s = "false"
    · simp [h1, h2] at h
      exact Or.inr ⟨h2, h⟩
    · simp [h1, h2] at h

theorem parse_bool_eq_none {s : String} (h : parse_bool s = none) :
    s ≠ "true" ∧ s ≠ "false" := by
  unfold parse_bool at h
  by_cases h1 : s = "true"
  · simp [h1] at h
  · by_cases h2 : s = "false"
    · simp [h1, h2] at h
    · exact ⟨h1, h2⟩

theorem map_cons_ok {e : Except EvalexprError (List Token)} {tk : Token}
    {r : List Token} (h : e.map (fun r2 => tk :: r2) = .ok r) :
    ∃ r2, e = .ok r2 ∧ r = tk :: r2 := by
  cases e with
  | error _ => simp [Except.map] at h
  | ok r2 =>
    simp only [Except.map, Except.ok.injEq] at h
    exact ⟨r2, rfl, h.symm⟩

theorem charToPartialToken_ne_token_neq (c : Char) :
    charToPartialToken c ≠ .Token .Neq := by
  unfold charToPartialToken
  split <;> first | (split <;> simp) | simp

theorem literal_to_token_ne_neq (l : String) : literal_to_token l ≠ Token.Neq := by
  cases h : parse_i64 l with
  | some n => simp [literal_to_token, h]
  | none =>
    cases hf : float_str_ok l with
    | true => simp [literal_to_token, h, hf]
    | false =>
      cases hb : parse_bool l with
      | some b => simp [literal_to_token, h, hf, hb]
      | none => simp [literal_to_token, h, hf, hb]

theorem pushPartial_no_token_neq {acc : List PartialToken} {pt : PartialToken}
    (hacc : ∀ x ∈ acc, x ≠ PartialToken.Token Token.Neq)
    (hpt : pt ≠ PartialToken.Token Token.Neq) :
    ∀ x ∈ pushPartial acc pt, x ≠ PartialToken.Token Token.Neq := by
  intro x hx
  unfold pushPartial at hx
  split at hx
  · rcases List.mem_append.mp hx with h1 | h1
    · exact hacc x (List.dropLast_subset _ h1)
    · simp only [List.mem_singleton] at h1
      subst h1
      simp
  · rcases List.mem_append.mp hx with h1 | h1
    · exact hacc x h1
    · simp only [List.mem_singleton] at h1
      subst h1
      exact hpt

theorem foldl_sttStep_no_token_neq (cs : List Char) :
    ∀ acc : List PartialToken, (∀ x ∈ acc, x ≠ PartialToken.Token Token.Neq) →
      ∀ x ∈ List.foldl sttStep acc cs, x ≠ PartialToken.Token Token.Neq := by
  induction cs with
  | nil => intro acc h; exact h
  | cons c cs2 ih =>
    intro acc h
    exact ih _ (pushPartial_no_token_neq h (charToPartialToken_ne_token_neq c))

theorem str_to_tokens_no_token_neq (s : String) :
    ∀ x ∈ str_to_tokens s, x ≠ PartialToken.Token Token.Neq :=
  foldl_sttStep_no_token_neq s.data [] (by simp)

theorem resolve_literals_no_neq (ts : List PartialToken) :
    (∀ x ∈ ts, x ≠ PartialToken.Token Token.Neq) →
    ∀ r, resolve_literals ts = .ok r → Token.Neq ∉ r := by
  induction ts using resolve_literals.induct with
  | case1 =>
    intro _ r h
    simp only [resolve_literals, Except.ok.injEq] at h
    subst h
    simp
  | case2 token rest ih =>
    intro hts r h
    simp only [resolve_literals] at h
    obtain ⟨r2, hres, rfl⟩ := map_cons_ok h
    have h0 := hts (.Token token) (List.mem_cons_self _ _)
    simp only [List.mem_cons, not_or]
    refine ⟨fun he => h0 (by rw [he]), ?_⟩
    exact ih (fun x hx => hts x (List.mem_cons_of_mem _ hx)) r2 hres
  | case3 literal rest ih =>
    intro hts r h
    simp only [resolve_literals] at h
    obtain ⟨r2, hres, rfl⟩ := map_cons_ok h
    simp only [List.mem_cons, not_or]
    refine ⟨fun he => literal_to_token_ne_neq literal he.symm, ?_⟩
    exact ih (fun x hx => hts x (List.mem_cons_of_mem _ hx)) r2 hres
  | case4 rest2 ih =>
    intro hts r h
    simp only [resolve_literals] at h
    obtain ⟨r2, hres, rfl⟩ := map_cons_ok h
    simp only [List.mem_cons, not_or]
    refine ⟨by simp, ?_⟩
    exact ih (fun x hx => hts x (List.mem_cons_of_mem _ (List.mem_cons_of_mem _ hx)))
      r2 hres
  | case5 tail hne =>
    intro hts r h
    exfalso
    cases tail with
    | nil => simp [resolve_literals] at h
    | cons x tail2 =>
      cases x <;> simp [resolve_literals] at h
      exact hne tail2 rfl
  | case6 rest2 ih =>
    intro hts r h
    simp only [resolve_literals] at h
    obtain ⟨r2, hres, rfl⟩ := map_cons_ok h
    simp only [List.mem_cons, not_or]
    refine ⟨by simp, ?_⟩
    exact ih (fun x hx => hts x (List.mem_cons_of_mem _ (List.mem_cons_of_mem _ hx)))
      r2 hres
  | case7 tail hne ih =>
    intro hts r h
    have hred : resolve_literals (.ExclamationMark :: tail) =
        (resolve_literals tail).map (fun r2 => Token.Not :: r2) := by
      cases tail with
      | nil => rfl
      | cons x tail2 =>
        cases x <;> first | rfl | exact absurd rfl (hne tail2)
    rw [hred] at h
    obtain ⟨r2, hres, rfl⟩ := map_cons_ok h
    simp only [List.mem_cons, not_or]
    refine ⟨by simp, ?_⟩
    exact ih (fun x hx => hts x (List.mem_cons_of_mem _ hx)) r2 hres
  | case8 rest2 ih =>
    intro hts r h
    simp only [resolve_literals] at h
    obtain ⟨r2, hres, rfl⟩ := map_cons_ok h
    simp only [List.mem_cons, not_or]
    refine ⟨by simp, ?_⟩
    exact ih (fun x hx => hts x (List.mem_cons_of_mem _ (List.mem_cons_of_mem _ hx)))
      r2 hres
  | case9 tail hne ih =>
    intro hts r h
    have hred : resolve_literals (.Gt :: tail) =
        (resolve_literals tail).map (fun r2 => Token.Gt :: r2) := by
      cases tail with
      | nil => rfl
      | cons x tail2 =>
        cases x <;> first | rfl | exact absurd rfl (hne tail2)
    rw [hred] at h
    obtain ⟨r2, hres, rfl⟩ := map_cons_ok h
    simp only [List.mem_cons, not_or]
    refine ⟨by simp, ?_⟩
    exact ih (fun x hx => hts x (List.mem_cons_of_mem _ hx)) r2 hres
  | case10 rest2 ih =>
    intro hts r h
    simp only [resolve_literals] at h
    obtain ⟨r2, hres, rfl⟩ := map_cons_ok h
    simp only [List.mem_cons, not_or]
    refine ⟨by simp, ?_⟩
    exact ih (fun x hx => hts x (List.mem_cons_of_mem _ (List.mem_cons_of_mem _ hx)))
      r2 hres
  | case11 tail hne ih =>
    intro hts r h
    have hred : resolve_literals (.Lt :: tail) =
        (resolve_literals tail).map (fun r2 => Token.Lt :: r2) := by
      cases tail with
      | nil => rfl
      | cons x tail2 =>
        cases x <;> first | rfl | exact absurd rfl (hne tail2)
    rw [hred] at h
    obtain ⟨r2, hres, rfl⟩ := map_cons_ok h
    simp only [List.mem_cons, not_or]
    refine ⟨by simp, ?_⟩
    exact ih (fun x hx => hts x (List.mem_cons_of_mem _ hx)) r2 hres
  | case12 rest2 ih =>
    intro hts r h
    simp only [resolve_literals] at h
    obtain ⟨r2, hres, rfl⟩ := map_cons_ok h
    simp only [List.mem_cons, not_or]
    refine ⟨by simp, ?_⟩
    exact ih (fun x hx => hts x (List.mem_cons_of_mem _ (List.mem_cons_of_mem _ hx)))
      r2 hres
  | case13 tail hne =>
    intro hts r h
    exfalso
    cases tail with
    | nil => simp [resolve_literals] at h
    | cons x tail2 =>
      cases x <;> simp [resolve_literals] at h
      exact hne tail2 rfl
  | case14 rest2 ih =>
    intro hts r h
    simp only [resolve_literals] at h
    obtain ⟨r2, hres, rfl⟩ := map_cons_ok h
    simp only [List.mem_cons, not_or]
    refine ⟨by simp, ?_⟩
    exact ih (fun x hx => hts x (List.mem_cons_of_mem _ (List.mem_cons_of_mem _ hx)))
      r2 hres
  | case15 tail hne =>
    intro hts r h
    exfalso
    cases tail with
    | nil => simp [resolve_literals] at h
    | cons x tail2 =>
      cases x <;> simp [resolve_literals] at h
      exact hne tail2 rfl

theorem head_ne_eq_of_not_cons {tail : List PartialToken}
    (h : ∀ rest2, tail = PartialToken.Eq :: rest2 → False) :
    tail.head? ≠ some PartialToken.Eq := by
  cases tail with
  | nil => simp
  | cons x tail2 =>
    simp only [List.head?_cons, ne_eq, Option.some.injEq]
    intro hx
    exact h tail2 (by rw [hx])

theorem resolve_excl_no_eq (tail : List PartialToken)
    (h : tail.head? ≠ some PartialToken.Eq) :
    resolve_literals (.ExclamationMark :: tail) =
      (resolve_literals tail).map (fun r => Token.Not :: r) := by
  cases tail with
  | nil => rfl
  | cons x tail2 => cases x <;> first | rfl | exact absurd rfl h

theorem resolve_gt_no_eq (tail : List PartialToken)
    (h : tail.head? ≠ some PartialToken.Eq) :
    resolve_literals (.Gt :: tail) =
      (resolve_literals tail).map (fun r => Token.Gt :: r) := by
  cases tail with
  | nil => rfl
  | cons x tail2 => cases x <;> first | rfl | exact absurd rfl h

theorem resolve_lt_no_eq (tail : List PartialToken)
    (h : tail.head? ≠ some PartialToken.Eq) :
    resolve_literals (.Lt :: tail) =
      (resolve_literals tail).map (fun r => Token.Lt :: r) := by
  cases tail with
  | nil => rfl
  | cons x tail2 => cases x <;> first | rfl | exact absurd rfl h

theorem head_append_token_ne_eq {tail ts2 : List PartialToken} {tk : Token}
    (h : tail.head? ≠ some PartialToken.Eq) :
    (tail ++ .Token tk :: ts2).head? ≠ some PartialToken.Eq := by
  cases tail <;> simp_all

/-- Appending a resolved-token entry followed by anything to an accepted
sequence lets the resolver consume the original sequence unchanged: the
lookahead never crosses a `PartialToken::Token` barrier. -/
theorem resolve_literals_append_token (ts1 : List PartialToken) :
    ∀ r1, resolve_literals ts1 = .ok r1 →
      ∀ (tk : Token) (ts2 : List PartialToken),
        resolve_literals (ts1 ++ .Token tk :: ts2) =
          (resolve_literals ts2).map (fun r2 => r1 ++ tk :: r2) := by
  induction ts1 using resolve_literals.induct with
  | case1 =>
    intro r1 h1 tk ts2
    simp only [resolve_literals, Except.ok.injEq] at h1
    subst h1
    simp only [List.nil_append]
    show (resolve_literals ts2).map (fun r => tk :: r) = _
    cases resolve_literals ts2 <;> simp [Except.map]
  | case2 token rest ih =>
    intro r1 h1 tk ts2
    simp only [resolve_literals] at h1
    obtain ⟨r2, hres, rfl⟩ := map_cons_ok h1
    simp only [List.cons_append, resolve_literals, List.append_eq]
    rw [ih r2 hres tk ts2]
    cases resolve_literals ts2 <;> simp [Except.map]
  | case3 literal rest ih =>
    intro r1 h1 tk ts2
    simp only [resolve_literals] at h1
    obtain ⟨r2, hres, rfl⟩ := map_cons_ok h1
    simp only [List.cons_append, resolve_literals, List.append_eq]
    rw [ih r2 hres tk ts2]
    cases resolve_literals ts2 <;> simp [Except.map]
  | case4 rest2 ih =>
    intro r1 h1 tk ts2
    simp only [resolve_literals] at h1
    obtain ⟨r2, hres, rfl⟩ := map_cons_ok h1
    simp only [List.cons_append, resolve_literals, List.append_eq]
    rw [ih r2 hres tk ts2]
    cases resolve_literals ts2 <;> simp [Except.map]
  | case5 tail hne =>
    intro r1 h1 tk ts2
    exfalso
    cases tail with
    | nil => simp [resolve_literals] at h1
    | cons x tail2 =>
      cases x <;> simp [resolve_literals] at h1
      exact hne tail2 rfl
  | case6 rest2 ih =>
    intro r1 h1 tk ts2
    simp only [resolve_literals] at h1
    obtain ⟨r2, hres, rfl⟩ := map_cons_ok h1
    simp only [List.cons_append, resolve_literals, List.append_eq]
    rw [ih r2 hres tk ts2]
    cases resolve_literals ts2 <;> simp [Except.map]
  | case7 tail hne ih =>
    intro r1 h1 tk ts2
    have hh := head_ne_eq_of_not_cons hne
    rw [resolve_excl_no_eq tail hh] at h1
    obtain ⟨r2, hres, rfl⟩ := map_cons_ok h1
    rw [List.cons_append, resolve_excl_no_eq _ (head_append_token_ne_eq hh),
      ih r2 hres tk ts2]
    cases resolve_literals ts2 <;> simp [Except.map]
  | case8 rest2 ih =>
    intro r1 h1 tk ts2
    simp only [resolve_literals] at h1
    obtain ⟨r2, hres, rfl⟩ := map_cons_ok h1
    simp only [List.cons_append, resolve_literals, List.append_eq]
    rw [ih r2 hres tk ts2]
    cases resolve_literals ts2 <;> simp [Except.map]
  | case9 tail hne ih =>
    intro r1 h1 tk ts2
    have hh := head_ne_eq_of_not_cons hne
    rw [resolve_gt_no_eq tail hh] at h1
    obtain ⟨r2, hres, rfl⟩ := map_cons_ok h1
    rw [List.cons_append, resolve_gt_no_eq _ (head_append_token_ne_eq hh),
      ih r2 hres tk ts2]
    cases resolve_literals ts2 <;> simp [Except.map]
  | case10 rest2 ih =>
    intro r1 h1 tk ts2
    simp only [resolve_literals] at h1
    obtain ⟨r2, hres, rfl⟩ := map_cons_ok h1
    simp only [List.cons_append, resolve_literals, List.append_eq]
    rw [ih r2 hres tk ts2]
    cases resolve_literals ts2 <;> simp [Except.map]
  | case11 tail hne ih =>
    intro r1 h1 tk ts2
    have hh := head_ne_eq_of_not_cons hne
    rw [resolve_lt_no_eq tail hh] at h1
    obtain ⟨r2, hres, rfl⟩ := map_cons_ok h1
    rw [List.cons_append, resolve_lt_no_eq _ (head_append_token_ne_eq hh),
      ih r2 hres tk ts2]
    cases resolve_literals ts2 <;> simp [Except.map]
  | case12 rest2 ih =>
    intro r1 h1 tk ts2
    simp only [resolve_literals] at h1
    obtain ⟨r2, hres, rfl⟩ := map_cons_ok h1
    simp only [List.cons_append, resolve_literals, List.append_eq]
    rw [ih r2 hres tk ts2]
    cases resolve_literals ts2 <;> simp [Except.map]
  | case13 tail hne =>
    intro r1 h1 tk ts2
    exfalso
    cases tail with
    | nil => simp [resolve_literals] at h1
    | cons x tail2 =>
      cases x <;> simp [resolve_literals] at h1
      exact hne tail2 rfl
  | case14 rest2 ih =>
    intro r1 h1 tk ts2
    simp only [resolve_literals] at h1
    obtain ⟨r2, hres, rfl⟩ := map_cons_ok h1
    simp only [List.cons_append, resolve_literals, List.append_eq]
    rw [ih r2 hres tk ts2]
    cases resolve_literals ts2 <;> simp [Except.map]
  | case15 tail hne =>
    intro r1 h1 tk ts2
    exfalso
    cases tail with
    | nil => simp [resolve_literals] at h1
    | cons x tail2 =>
      cases x <;> simp [resolve_literals] at h1
      exact hne tail2 rfl

/-- Splitting the merger's output at a single whitespace separator: the space
is classified as a resolved `Whitespace` token, never merges with a literal
run, and cuts any run so the two sides merge independently. -/
theorem str_to_tokens_space_append (s1 s2 : String) :
    str_to_tokens (s1 ++ " " ++ s2) =
      str_to_tokens s1 ++ .Token .Whitespace :: str_to_tokens s2 := by
  have hdata : (s1 ++ " " ++ s2).data = (s1.data ++ [' ']) ++ s2.data := by
    rw [String.data_append, String.data_append]
  show List.foldl sttStep [] (s1 ++ " " ++ s2).data = _
  rw [hdata, List.foldl_append, List.foldl_append]
  have hws : charToPartialToken ' ' = .Token .Whitespace := rfl
  have h1 : List.foldl sttStep (List.foldl sttStep [] s1.data) [' '] =
      str_to_tokens s1 ++ [PartialToken.Token Token.Whitespace] := by
    show pushPartial (str_to_tokens s1) (charToPartialToken ' ') = _
    rw [hws, pushPartial_of_not_lit _ (by simp [isLit])]
  rw [h1, foldl_sttStep_append s2.data (str_to_tokens s1)
    [PartialToken.Token Token.Whitespace] (by simp),
    foldl_sttStep_barrier (by simp [isLit]) s2.data]
  rfl

/-- C2: if `tokenize s1 = Ok t1` and `tokenize s2 = Ok t2` then tokenizing
`s1 ++ " " ++ s2` succeeds and returns exactly `t1`, one `Whitespace` token,
then `t2`. -/
theorem c2_whitespace_concatenation (s1 s2 : String) (t1 t2 : List Token)
    (h1 : tokenize s1 = .ok t1) (h2 : tokenize s2 = .ok t2) :
    tokenize (s1 ++ " " ++ s2) = .ok (t1 ++ Token.Whitespace :: t2) := by
  show resolve_literals (str_to_tokens (s1 ++ " " ++ s2)) = _
  rw [str_to_tokens_space_append,
    resolve_literals_append_token (str_to_tokens s1) t1 h1 Token.Whitespace
      (str_to_tokens s2)]
  show (tokenize s2).map _ = _
  rw [h2]
  rfl

/-- C2 witness: the concatenation law applied at `s1 = "1"`, `s2 = "2"`. -/
theorem c2_whitespace_concatenation_witness :
    tokenize ("1" ++ " " ++ "2") =
      .ok [Token.Int 1, Token.Whitespace, Token.Int 2] :=
  c2_whitespace_concatenation "1" "2" [Token.Int 1] [Token.Int 2] (by rfl) (by rfl)

/-- C3: for every input, `tokenize` returns `Ok` or `Err` (it is total), and
every iteration of the resolver loop either fails terminally or emits one
token and advances by a cutoff of 1 or 2, where the cutoff is 2 only when a
second entry exists — so the remaining slice strictly shrinks and the slice
index is always in bounds. -/
theorem c3_totality_and_progress :
    (∀ s : String, (∃ ts, tokenize s = .ok ts) ∨ (∃ e, tokenize s = .error e)) ∧
    (∀ (first : PartialToken) (rest : List PartialToken),
      (∃ e, resolve_literals (first :: rest) = .error e) ∨
      ∃ tk cutoff, (cutoff = 1 ∨ (cutoff = 2 ∧ rest ≠ [])) ∧
        resolve_literals (first :: rest) =
          (resolve_literals ((first :: rest).drop cutoff)).map (fun r => tk :: r)) := by
  constructor
  · intro s
    cases h : tokenize s with
    | ok ts => exact Or.inl ⟨ts, rfl⟩
    | error e => exact Or.inr ⟨e, rfl⟩
  · intro first rest
    cases first <;> cases rest <;>
      first
        | exact Or.inr ⟨_, 1, Or.inl rfl, rfl⟩
        | exact Or.inl ⟨_, rfl⟩
        | (rename_i x rest2
           cases x <;>
             first
               | exact Or.inr ⟨_, 2, Or.inr ⟨rfl, by simp⟩, rfl⟩
               | exact Or.inr ⟨_, 1, Or.inl rfl, rfl⟩
               | exact Or.inl ⟨_, rfl⟩)

/-- C9: for every input string, the classified-and-merged intermediate
sequence contains no two adjacent literal-run entries, and its length is at
most the number of characters of the input. -/
theorem c9_merger_invariant (s : String) :
    List.Chain' noAdjLit (str_to_tokens s) ∧
      (str_to_tokens s).length ≤ s.length := by
  constructor
  · exact foldl_sttStep_chain s.data [] List.chain'_nil
  · have h := foldl_sttStep_length s.data []
    show (List.foldl sttStep [] s.data).length ≤ s.data.length
    simpa using h

/-- C10: a successful `tokenize` result never contains the token `Neq`: the
variant exists in `Token` but no classifier or resolver branch produces it. -/
theorem c10_neq_unreachable (s : String) (ts : List Token)
    (h : tokenize s = .ok ts) : Token.Neq ∉ ts :=
  resolve_literals_no_neq (str_to_tokens s) (str_to_tokens_no_token_neq s) ts h

/-- C10 witness: the theorem applied at the concrete input `"1"`. -/
theorem c10_neq_unreachable_witness : Token.Neq ∉ [Token.Int 1] :=
  c10_neq_unreachable "1" [Token.Int 1] (by rfl)

/-- C1: tokenizing the two-character input `"!="` succeeds and yields exactly
the single token `Eq` (not `Neq`): the resolver, on the unresolved
exclamation-mark partial token followed by the unresolved `=` partial token,
emits `Eq` and consumes both entries. -/
theorem c1_bang_equal_resolves_to_Eq : tokenize "!=" = .ok [Token.Eq] := by rfl

/-- C4: `Token.is_value` returns `true` exactly for `RBrace`, `Identifier _`,
`Float _`, `Int _` and `Boolean _`, and `false` for every other variant; in
particular `is_value LBrace = false` while `is_value RBrace = true`. -/
theorem c4_is_value_characterisation :
    (∀ t : Token, t.is_value = true ↔
      (t = .RBrace ∨ (∃ s, t = .Identifier s) ∨ (∃ f, t = .Float f) ∨
        (∃ n, t = .Int n) ∨ (∃ b, t = .Boolean b))) ∧
    Token.is_value .LBrace = false ∧ Token.is_value .RBrace = true := by
  refine ⟨fun t => ?_, rfl, rfl⟩
  cases t <;> simp [Token.is_value]

/-- C5: an unresolved `=`, `&` or `|` partial token not followed by,
respectively, another `=`, `&` or `|` (or followed by nothing) makes the
resolver fail with `UnmatchedPartialToken` carrying that first partial token
verbatim and the optional second entry verbatim; concretely `tokenize "="`
errors with first = `Eq`, second = `none`, and `tokenize "=x"` errors with
second = the literal run `"x"`. -/
theorem c5_unmatched_ambiguous_chars :
    (∀ rest : List PartialToken, rest.head? ≠ some .Eq →
      resolve_literals (.Eq :: rest) =
        .error (.UnmatchedPartialToken .Eq rest.head?)) ∧
    (∀ rest : List PartialToken, rest.head? ≠ some .Ampersand →
      resolve_literals (.Ampersand :: rest) =
        .error (.UnmatchedPartialToken .Ampersand rest.head?)) ∧
    (∀ rest : List PartialToken, rest.head? ≠ some .VerticalBar →
      resolve_literals (.VerticalBar :: rest) =
        .error (.UnmatchedPartialToken .VerticalBar rest.head?)) ∧
    tokenize "=" = .error (.UnmatchedPartialToken .Eq none) ∧
    tokenize "=x" = .error (.UnmatchedPartialToken .Eq (some (.Literal "x"))) := by
  refine ⟨?_, ?_, ?_, rfl, rfl⟩ <;> intro rest h
  · cases rest with
    | nil => rfl
    | cons x rest2 => cases x <;> first | rfl | exact absurd rfl h
  · cases rest with
    | nil => rfl
    | cons x rest2 => cases x <;> first | rfl | exact absurd rfl h
  · cases rest with
    | nil => rfl
    | cons x rest2 => cases x <;> first | rfl | exact absurd rfl h

/-- C5 witness: the general unmatched-`&` rule applied at the concrete input
`[Ampersand]`. -/
theorem c5_unmatched_ambiguous_chars_witness :
    resolve_literals [PartialToken.Ampersand] =
      .error (.UnmatchedPartialToken .Ampersand none) :=
  c5_unmatched_ambiguous_chars.2.1 [] (by decide)

/-- C6: every literal run is resolved with strict priority — host-integer
parse to `Int`, else host-float parse to `Float`, else exactly `"true"` or
`"false"` to `Boolean`, else `Identifier` carrying the run verbatim — and
`tokenize "12x"` yields the single token `Identifier "12x"` from one merged
run. -/
theorem c6_literal_priority :
    (∀ s : String,
      (∃ n, parse_i64 s = some n ∧ literal_to_token s = .Int n) ∨
      (parse_i64 s = none ∧ float_str_ok s = true ∧
        literal_to_token s = .Float s) ∨
      (parse_i64 s = none ∧ float_str_ok s = false ∧
        ((s = "true" ∧ literal_to_token s = .Boolean true) ∨
         (s = "false" ∧ literal_to_token s = .Boolean false))) ∨
      (parse_i64 s = none ∧ float_str_ok s = false ∧ s ≠ "true" ∧ s ≠ "false" ∧
        literal_to_token s = .Identifier s)) ∧
    tokenize "12x" = .ok [.Identifier "12x"] := by
  refine ⟨fun s => ?_, rfl⟩
  cases hi : parse_i64 s with
  | some n => exact Or.inl ⟨n, rfl, by simp [literal_to_token, hi]⟩
  | none =>
    cases hf : float_str_ok s with
    | true => exact Or.inr (Or.inl ⟨rfl, rfl, by simp [literal_to_token, hi, hf]⟩)
    | false =>
      cases hb : parse_bool s with
      | some b =>
        refine Or.inr (Or.inr (Or.inl ⟨rfl, rfl, ?_⟩))
        rcases parse_bool_eq_some hb with ⟨hs, hbv⟩ | ⟨hs, hbv⟩
        · exact Or.inl ⟨hs, by simp [literal_to_token, hi, hf, hb, hbv]⟩
        · exact Or.inr ⟨hs, by simp [literal_to_token, hi, hf, hb, hbv]⟩
      | none =>
        obtain ⟨h1, h2⟩ := parse_bool_eq_none hb
        exact Or.inr (Or.inr (Or.inr ⟨rfl, rfl, h1, h2,
          by simp [literal_to_token, hi, hf, hb]⟩))

/-- C7: `tokenize "1 + 2"` yields `[Int 1, Whitespace, Plus, Whitespace,
Int 2]` — each whitespace character is emitted as a `Whitespace` token in
order, never dropped. -/
theorem c7_whitespace_tokens_retained :
    tokenize "1 + 2" = .ok [.Int 1, .Whitespace, .Plus, .Whitespace, .Int 2] := by
  rfl

/-- C8: `expect_number` returns `Ok(())` exactly on `Int` and `Float` values,
and on every other value (in particular a `String`) returns the
`ExpectedNumber` error carrying the offending value. -/
theorem c8_expect_number_characterisation :
    ∀ v : Value,
      (expect_number v = .ok () ∧ ((∃ n, v = .Int n) ∨ (∃ f, v = .Float f))) ∨
      (expect_number v = .error (.ExpectedNumber v) ∧
        ¬((∃ n, v = .Int n) ∨ (∃ f, v = .Float f))) := by
  intro v
  cases v <;> simp [expect_number]
